import Mathlib

/-!
Shallow embedding of the stock/price synchronisation code in `seller.py`
(Ozon variant) and `market.py` (Yandex Market variant).

Conventions of the embedding:
* Spreadsheet rows (`watch_remnants` entries) are `WatchRecord`s whose three
  fields model the values of the keys used by the code: `kod` for the item
  code column, `kolichestvo` for the quantity column, `tsena` for the price
  column.  The code always accesses these through `str(...)` for comparison,
  so the fields are strings.
* Python's in-place mutation of the `offer_ids` list is modelled by explicit
  state passing: a function that mutates the list returns the final value of
  the list as a second component.
* Fallible code (Python `int(...)` raising `ValueError`, attribute errors on
  non-string values) returns `Option`, `none` being the raised exception.
* The HTTP pagination loops are modelled over the stream of page responses
  the server would return, given as a list; the loop consumes the stream in
  order, and `none` models a loop that exhausts the stream without ever
  seeing the termination signal (in Python it would keep issuing requests).
-/

/-- Value of a non-empty list of decimal digit characters. -/
def digitsToNat (l : List Char) : Nat :=
  l.foldl (fun n c => n * 10 + (c.toNat - 48)) 0

/-- Model of Python's `int(...)` applied to a decimal string consisting of an
optional minus sign followed by digits (the only shapes the quantity and
price data take); `none` models the raised `ValueError`. -/
def pyStrToInt (s : String) : Option Int :=
  match s.toList with
  | [] => none
  | c :: cs =>
    if c = '-' then
      if cs ≠ [] ∧ cs.all (fun d => d.isDigit) then some (-(digitsToNat cs : Int))
      else none
    else if (c :: cs).all (fun d => d.isDigit) then some (digitsToNat (c :: cs))
    else none

/-- One parsed spreadsheet row: the values of the item-code, quantity and
price columns read by `watch.get(...)` in `seller.py` and `market.py`. -/
structure WatchRecord where
  kod : String
  kolichestvo : String
  tsena : String
deriving DecidableEq, Repr

/-- The quantity branch shared verbatim by `seller.create_stocks`
(seller.py lines 214-220) and `market.create_stocks` (market.py lines
184-190): `">10"` becomes 100, `"1"` becomes 0, anything else is passed to
`int(...)`. -/
def normalizeQuantity (count : String) : Option Int :=
  if count = ">10" then some 100
  else if count = "1" then some 0
  else pyStrToInt count

/-- One Ozon stock-update record `{"offer_id": ..., "stock": ...}` built by
`seller.create_stocks`. -/
structure StockRecord where
  offer_id : String
  stock : Int
deriving DecidableEq, Repr

/-- The first loop of `seller.create_stocks` (seller.py lines 212-222): for
each vendor row whose code is still in `offer_ids`, normalise the quantity,
emit a record and erase the code from `offer_ids` (Python `list.remove`
deletes the first occurrence, as `List.erase` does).  Returns the emitted
records and the final state of `offer_ids`. -/
def stocksLoop : List WatchRecord → List String → Option (List StockRecord × List String)
  | [], offer_ids => some ([], offer_ids)
  | w :: ws, offer_ids =>
    if w.kod ∈ offer_ids then
      match normalizeQuantity w.kolichestvo with
      | none => none
      | some stock =>
        match stocksLoop ws (offer_ids.erase w.kod) with
        | none => none
        | some (recs, rem) => some (⟨w.kod, stock⟩ :: recs, rem)
    else stocksLoop ws offer_ids

/-- `seller.create_stocks` (seller.py lines 185-226): the matching loop
followed by the zero-stock fallback loop over the identifiers left in
`offer_ids`.  The second component is the final state of the (mutated)
`offer_ids` list. -/
def create_stocks (watch_remnants : List WatchRecord) (offer_ids : List String) :
    Option (List StockRecord × List String) :=
  match stocksLoop watch_remnants offer_ids with
  | none => none
  | some (recs, rem) => some (recs ++ rem.map (fun oid => ⟨oid, 0⟩), rem)

/-- Model of Python's `str.split(sep)` for a one-character separator: splits
on every occurrence, and the empty string splits to `[""]`. -/
def py_split (sep : Char) : List Char → List (List Char)
  | [] => [[]]
  | c :: cs =>
    if c = sep then [] :: py_split sep cs
    else
      match py_split sep cs with
      | [] => [[c]]
      | h :: t => (c :: h) :: t

/-- Core of `seller.price_conversion` (seller.py line 278):
`re.sub("[^0-9]", "", price.split(".")[0])` — keep the part before the first
period and delete every character that is not an ASCII digit. -/
def price_conversion_core (price : List Char) : List Char :=
  ((py_split '.' price).headI).filter (fun c => c.isDigit)

/-- `seller.price_conversion` on a string value. -/
def price_conversion (price : String) : String :=
  String.mk (price_conversion_core price.toList)

/-- A dynamically-typed Python value, as far as `price_conversion` can
observe it: the function calls `.split` on its argument, which succeeds
exactly on strings (`AttributeError` otherwise, cf. the docstring example
`price_conversion(5990.00)` raising `AttributeError`). -/
inductive PyVal
  | pyStr (s : String)
  | pyInt (n : Int)
  | pyFloat (q : ℚ)
  | pyNone
deriving DecidableEq, Repr

/-- Whether a Python value is a text (`str`) value. -/
def PyVal.isStr : PyVal → Bool
  | PyVal.pyStr _ => true
  | _ => false

/-- `seller.price_conversion` on a dynamically-typed argument: `.split`
raises `AttributeError` (modelled `none`) unless the argument is a string. -/
def price_conversion_dyn : PyVal → Option String
  | PyVal.pyStr s => some (price_conversion s)
  | _ => none

/-- One Ozon price-update record built by `seller.create_prices`
(seller.py lines 251-257). -/
structure PriceRecord where
  auto_action_enabled : String
  currency_code : String
  offer_id : String
  old_price : String
  price : String
deriving DecidableEq, Repr

/-- `seller.create_prices` (seller.py lines 229-259) in state-passing form:
the loop reads `offer_ids` (membership tests only, no mutation), so the
second component is the final state of the list. -/
def create_prices_st : List WatchRecord → List String → (List PriceRecord × List String)
  | [], offer_ids => ([], offer_ids)
  | w :: ws, offer_ids =>
    if w.kod ∈ offer_ids then
      let rest := create_prices_st ws offer_ids
      (⟨"UNKNOWN", "RUB", w.kod, "0", price_conversion w.tsena⟩ :: rest.1, rest.2)
    else create_prices_st ws offer_ids

/-- The list of price records returned by `seller.create_prices`. -/
def create_prices (watch_remnants : List WatchRecord) (offer_ids : List String) :
    List PriceRecord :=
  (create_prices_st watch_remnants offer_ids).1

/-- `seller.divide` (seller.py lines 281-299): consecutive slices
`lst[i : i + n]` for `i = 0, n, 2n, ...`.  Python raises `ValueError` on
step `n = 0`; the claims only concern positive `n`, and the `n = 0` branch
here returns `[]`. -/
def divide (lst : List α) (n : Nat) : List (List α) :=
  if _hn : n = 0 then []
  else
    match lst with
    | [] => []
    | x :: xs => (x :: xs).take n :: divide ((x :: xs).drop n) n
termination_by lst.length
decreasing_by
  simp only [List.length_drop]
  simp only [List.length_cons]
  omega

/-- C8: on the end-to-end scenario of the spec — vendor rows A1 (qty ">10",
price "100.00 x") and A2 (qty "1", price "50.00 x"), fresh offer-identifier
list ["A1","A2","A3"] per call — `create_stocks` yields exactly
[{A1,100},{A2,0},{A3,0}] (leaving ["A3"] in the list) and `create_prices`
yields price records only for A1 (price "100") and A2 (price "50"). -/
theorem end_to_end_scenario :
    create_stocks [⟨"A1", ">10", "100.00 x"⟩, ⟨"A2", "1", "50.00 x"⟩]
        ["A1", "A2", "A3"]
      = some ([⟨"A1", 100⟩, ⟨"A2", 0⟩, ⟨"A3", 0⟩], ["A3"]) ∧
    create_prices [⟨"A1", ">10", "100.00 x"⟩, ⟨"A2", "1", "50.00 x"⟩]
        ["A1", "A2", "A3"]
      = [⟨"UNKNOWN", "RUB", "A1", "0", "100"⟩, ⟨"UNKNOWN", "RUB", "A2", "0", "50"⟩] := by
  constructor <;> rfl

/-- C2: the quantity normalisation shared by both `create_stocks` variants
maps exactly ">10" to 100, exactly "1" to 0, and any other quantity string
to its direct integer parse (so "7" parses to 7). -/
theorem normalize_quantity_rules :
    normalizeQuantity ">10" = some 100 ∧
    normalizeQuantity "1" = some 0 ∧
    normalizeQuantity "7" = some 7 ∧
    (∀ s : String, s ≠ ">10" → s ≠ "1" → normalizeQuantity s = pyStrToInt s) := by
  refine ⟨rfl, rfl, by decide, ?_⟩
  intro s h1 h2
  unfold normalizeQuantity
  rw [if_neg h1, if_neg h2]

/-- Witness for C2 at the concrete quantity string "7". -/
theorem normalize_quantity_rules_witness :
    normalizeQuantity "7" = pyStrToInt "7" :=
  normalize_quantity_rules.2.2.2 "7" (by decide) (by decide)

/-- Splitting a list whose first separator occurrence is explicit: `py_split`
peels off everything before the first separator. -/
theorem py_split_append (sep : Char) (a b : List Char) (ha : ∀ c ∈ a, c ≠ sep) :
    py_split sep (a ++ sep :: b) = a :: py_split sep b := by
  induction a with
  | nil => simp [py_split]
  | cons c a ih =>
    have hc : c ≠ sep := ha c (by simp)
    have ih' := ih (fun x hx => ha x (by simp [hx]))
    simp only [List.cons_append, py_split, if_neg hc]
    rw [List.append_eq, ih']

/-- C3: on any price string made of an integer part (free of periods, possibly
with separator characters), a period, and an arbitrary tail, `price_conversion`
keeps the part before the first period and strips every non-digit character;
in particular the spec example "5'990.00 руб." yields "5990". -/
theorem price_conversion_integer_prefix :
    (∀ a b : List Char, (∀ c ∈ a, c ≠ '.') →
        price_conversion_core (a ++ '.' :: b) = a.filter (fun c => c.isDigit)) ∧
    price_conversion "5\x27990.00 руб." = "5990" := by
  constructor
  · intro a b ha
    unfold price_conversion_core
    rw [py_split_append _ a b ha]
    simp
  · rfl

/-- Witness for C3 at the spec example, split as "5'990" ++ "." ++ "00 руб.". -/
theorem price_conversion_integer_prefix_witness :
    price_conversion_core ("5\x27990".toList ++ '.' :: "00 руб.".toList)
      = ("5\x27990".toList).filter (fun c => c.isDigit) :=
  price_conversion_integer_prefix.1 ("5\x27990".toList) ("00 руб.".toList) (by decide)

/-- C4 counterexample: on the text input "5990", which contains no period,
`price_conversion` does not fail — Python `str.split` returns the whole
string when the separator is absent, so the call returns "5990" normally. -/
theorem price_conversion_no_dot_counterexample :
    price_conversion_dyn (PyVal.pyStr "5990") = some "5990" := rfl

/-- C4 amended: `price_conversion` fails exactly when its input is not a text
value; on every text input it returns normally, including inputs with no
period, where the whole digit-filtered string is returned. -/
theorem price_conversion_failure_modes :
    (∀ s : String, price_conversion_dyn (PyVal.pyStr s) = some (price_conversion s)) ∧
    price_conversion_dyn (PyVal.pyStr "5990") = some "5990" ∧
    (∀ v : PyVal, (price_conversion_dyn v).isNone = !(PyVal.isStr v)) := by
  refine ⟨fun s => rfl, rfl, ?_⟩
  intro v
  cases v <;> rfl

/-- `divide` on the empty list yields zero chunks. -/
theorem divide_nil (n : Nat) : divide ([] : List α) n = [] := by
  unfold divide
  split <;> rfl

/-- Unfolding equation for `divide` on a non-empty list and positive `n`. -/
theorem divide_cons (x : α) (xs : List α) (n : Nat) (hn : n ≠ 0) :
    divide (x :: xs) n = (x :: xs).take n :: divide ((x :: xs).drop n) n := by
  rw [divide]
  simp [hn]

/-- Concatenating the chunks of `divide` reproduces the list. -/
theorem divide_flatten_aux (n : Nat) (hn : n ≠ 0) :
    ∀ (k : Nat) (lst : List α), lst.length ≤ k → (divide lst n).flatten = lst := by
  intro k
  induction k with
  | zero =>
    intro lst h
    have hl : lst = [] := List.eq_nil_of_length_eq_zero (Nat.le_zero.mp h)
    subst hl
    rw [divide_nil]
    rfl
  | succ k ih =>
    intro lst h
    match lst with
    | [] => rw [divide_nil]; rfl
    | x :: xs =>
      rw [divide_cons x xs n hn, List.flatten_cons]
      have hd : ((x :: xs).drop n).length ≤ k := by
        simp only [List.length_drop, List.length_cons]
        simp only [List.length_cons] at h
        omega
      rw [ih _ hd, List.take_append_drop]

/-- The number of chunks of `divide` is the ceiling of `length / n`. -/
theorem divide_length_aux (n : Nat) (hn : n ≠ 0) :
    ∀ (k : Nat) (lst : List α), lst.length ≤ k →
      (divide lst n).length = (lst.length + n - 1) / n := by
  intro k
  induction k with
  | zero =>
    intro lst h
    have hl : lst = [] := List.eq_nil_of_length_eq_zero (Nat.le_zero.mp h)
    subst hl
    rw [divide_nil]
    simp only [List.length_nil, Nat.zero_add]
    exact (Nat.div_eq_of_lt (by omega)).symm
  | succ k ih =>
    intro lst h
    match lst with
    | [] =>
      rw [divide_nil]
      simp only [List.length_nil, Nat.zero_add]
      exact (Nat.div_eq_of_lt (by omega)).symm
    | x :: xs =>
      rw [divide_cons x xs n hn]
      have hd : ((x :: xs).drop n).length ≤ k := by
        simp only [List.length_drop, List.length_cons]
        simp only [List.length_cons] at h
        omega
      rw [List.length_cons, ih _ hd, List.length_drop]
      have hm1 : 1 ≤ (x :: xs).length := by simp
      rcases le_or_lt (x :: xs).length n with hle | hlt
      · have h1 : (x :: xs).length - n = 0 := Nat.sub_eq_zero_of_le hle
        rw [h1]
        have e1 : (0 + n - 1) / n = 0 := Nat.div_eq_of_lt (by omega)
        have e2 : ((x :: xs).length + n - 1) / n = 1 :=
          Nat.div_eq_of_lt_le (by omega) (by omega)
        omega
      · have h2 : (x :: xs).length - n + n - 1 = (x :: xs).length - 1 := by omega
        have h3 : (x :: xs).length + n - 1 = ((x :: xs).length - 1) + n := by omega
        rw [h2, h3, Nat.add_div_right _ (Nat.pos_of_ne_zero hn)]

/-- Every chunk produced by `divide` has at most `n` elements. -/
theorem divide_chunk_le_aux (n : Nat) (hn : n ≠ 0) :
    ∀ (k : Nat) (lst : List α), lst.length ≤ k →
      ∀ c ∈ divide lst n, c.length ≤ n := by
  intro k
  induction k with
  | zero =>
    intro lst h c hc
    have hl : lst = [] := List.eq_nil_of_length_eq_zero (Nat.le_zero.mp h)
    subst hl
    rw [divide_nil] at hc
    cases hc
  | succ k ih =>
    intro lst h c hc
    match lst with
    | [] => rw [divide_nil] at hc; cases hc
    | x :: xs =>
      rw [divide_cons x xs n hn] at hc
      rcases List.mem_cons.mp hc with hc | hc
      · subst hc
        exact List.length_take_le n (x :: xs)
      · have hd : ((x :: xs).drop n).length ≤ k := by
          simp only [List.length_drop, List.length_cons]
          simp only [List.length_cons] at h
          omega
        exact ih _ hd c hc

/-- C5: for every list and every positive chunk size `n`, `divide` partitions
the list into consecutive chunks of at most `n` elements: the chunks flatten
back to the list, the chunk count is `ceil(length / n)`, the empty list
yields zero chunks, and a non-empty list with `length ≤ n` yields the single
chunk equal to the list itself. -/
theorem divide_partition (lst : List α) (n : Nat) (hn : 0 < n) :
    (divide lst n).flatten = lst ∧
    (divide lst n).length = (lst.length + n - 1) / n ∧
    (∀ c ∈ divide lst n, c.length ≤ n) ∧
    divide ([] : List α) n = [] ∧
    (lst ≠ [] → lst.length ≤ n → divide lst n = [lst]) := by
  have hn' : n ≠ 0 := Nat.pos_iff_ne_zero.mp hn
  refine ⟨divide_flatten_aux n hn' lst.length lst le_rfl,
    divide_length_aux n hn' lst.length lst le_rfl,
    divide_chunk_le_aux n hn' lst.length lst le_rfl,
    divide_nil n, ?_⟩
  intro hne hle
  match lst with
  | [] => exact absurd rfl hne
  | x :: xs =>
    rw [divide_cons x xs n hn', List.take_of_length_le hle,
      List.drop_eq_nil_of_le hle, divide_nil]

/-- Witness for C5 at the docstring example `divide [1,2,3,4,5] 2`. -/
theorem divide_partition_witness :
    (divide [1, 2, 3, 4, 5] 2).flatten = [1, 2, 3, 4, 5] ∧
    (divide [1, 2, 3, 4, 5] 2).length = 3 := by
  have h := divide_partition [1, 2, 3, 4, 5] 2 (by decide)
  exact ⟨h.1, h.2.1.trans (by decide)⟩

/-- Each offer identifier's multiplicity is conserved by the matching loop:
emitted records plus leftover occurrences account for the input list. -/
theorem stocksLoop_count (V : List WatchRecord) :
    ∀ (O : List String) (recs : List StockRecord) (rem : List String),
      stocksLoop V O = some (recs, rem) →
      ∀ s : String,
        recs.countP (fun r => r.offer_id == s) + rem.count s = O.count s := by
  induction V with
  | nil =>
    intro O recs rem h s
    simp only [stocksLoop, Option.some.injEq, Prod.mk.injEq] at h
    obtain ⟨h1, h2⟩ := h
    subst h1
    subst h2
    simp [List.countP_nil]
  | cons w ws ih =>
    intro O recs rem h s
    by_cases hmem : w.kod ∈ O
    · rw [stocksLoop, if_pos hmem] at h
      cases hq : normalizeQuantity w.kolichestvo with
      | none => rw [hq] at h; cases h
      | some stock =>
        rw [hq] at h
        cases hrec : stocksLoop ws (O.erase w.kod) with
        | none => rw [hrec] at h; cases h
        | some pr =>
          obtain ⟨recs0, rem0⟩ := pr
          rw [hrec] at h
          simp only [Option.some.injEq, Prod.mk.injEq] at h
          obtain ⟨h1, h2⟩ := h
          subst h2
          subst h1
          have hih := ih (O.erase w.kod) recs0 rem0 hrec s
          rw [List.count_erase] at hih
          rw [List.countP_cons]
          have hproj : (⟨w.kod, stock⟩ : StockRecord).offer_id = w.kod := rfl
          rw [hproj]
          by_cases hks : w.kod = s
          · have hb : (w.kod == s) = true := beq_iff_eq.mpr hks
            have hcnt : 0 < O.count s := List.count_pos_iff.mpr (hks ▸ hmem)
            simp only [hb, if_true] at hih ⊢
            omega
          · have hb : (w.kod == s) = false := by
              exact beq_eq_false_iff_ne.mpr hks
            simp only [hb, Bool.false_eq_true, if_false] at hih ⊢
            omega
    · rw [stocksLoop, if_neg hmem] at h
      exact ih O recs rem h s

/-- The matching loop conserves total length: emitted records plus leftover
identifiers make up the input list's length. -/
theorem stocksLoop_length (V : List WatchRecord) :
    ∀ (O : List String) (recs : List StockRecord) (rem : List String),
      stocksLoop V O = some (recs, rem) →
      recs.length + rem.length = O.length := by
  induction V with
  | nil =>
    intro O recs rem h
    simp only [stocksLoop, Option.some.injEq, Prod.mk.injEq] at h
    obtain ⟨h1, h2⟩ := h
    subst h1
    subst h2
    simp
  | cons w ws ih =>
    intro O recs rem h
    by_cases hmem : w.kod ∈ O
    · rw [stocksLoop, if_pos hmem] at h
      cases hq : normalizeQuantity w.kolichestvo with
      | none => rw [hq] at h; cases h
      | some stock =>
        rw [hq] at h
        cases hrec : stocksLoop ws (O.erase w.kod) with
        | none => rw [hrec] at h; cases h
        | some pr =>
          obtain ⟨recs0, rem0⟩ := pr
          rw [hrec] at h
          simp only [Option.some.injEq, Prod.mk.injEq] at h
          obtain ⟨h1, h2⟩ := h
          subst h2
          subst h1
          have hih := ih (O.erase w.kod) recs0 rem0 hrec
          rw [List.length_erase_of_mem hmem] at hih
          have hpos : 0 < O.length := List.length_pos.mpr (List.ne_nil_of_mem hmem)
          simp only [List.length_cons]
          omega
    · rw [stocksLoop, if_neg hmem] at h
      exact ih O recs rem h

/-- The leftover identifiers form a sublist of the input list. -/
theorem stocksLoop_sublist (V : List WatchRecord) :
    ∀ (O : List String) (recs : List StockRecord) (rem : List String),
      stocksLoop V O = some (recs, rem) → rem.Sublist O := by
  induction V with
  | nil =>
    intro O recs rem h
    simp only [stocksLoop, Option.some.injEq, Prod.mk.injEq] at h
    obtain ⟨h1, h2⟩ := h
    subst h2
    exact List.Sublist.refl O
  | cons w ws ih =>
    intro O recs rem h
    by_cases hmem : w.kod ∈ O
    · rw [stocksLoop, if_pos hmem] at h
      cases hq : normalizeQuantity w.kolichestvo with
      | none => rw [hq] at h; cases h
      | some stock =>
        rw [hq] at h
        cases hrec : stocksLoop ws (O.erase w.kod) with
        | none => rw [hrec] at h; cases h
        | some pr =>
          obtain ⟨recs0, rem0⟩ := pr
          rw [hrec] at h
          simp only [Option.some.injEq, Prod.mk.injEq] at h
          obtain ⟨h1, h2⟩ := h
          subst h2
          exact (ih (O.erase w.kod) recs0 rem0 hrec).trans (List.erase_sublist w.kod O)
    · rw [stocksLoop, if_neg hmem] at h
      exact ih O recs rem h

/-- On a duplicate-free input list, every leftover identifier has no matching
vendor record at all: the loop consumed exactly the matched identifiers. -/
theorem stocksLoop_rem_no_vendor (V : List WatchRecord) :
    ∀ (O : List String) (recs : List StockRecord) (rem : List String),
      stocksLoop V O = some (recs, rem) → O.Nodup →
      ∀ s ∈ rem, ∀ w ∈ V, w.kod ≠ s := by
  induction V with
  | nil =>
    intro O recs rem h _ s hs w hw
    cases hw
  | cons w ws ih =>
    intro O recs rem h hnd s hs w0 hw0
    by_cases hmem : w.kod ∈ O
    · rw [stocksLoop, if_pos hmem] at h
      cases hq : normalizeQuantity w.kolichestvo with
      | none => rw [hq] at h; cases h
      | some stock =>
        rw [hq] at h
        cases hrec : stocksLoop ws (O.erase w.kod) with
        | none => rw [hrec] at h; cases h
        | some pr =>
          obtain ⟨recs0, rem0⟩ := pr
          rw [hrec] at h
          simp only [Option.some.injEq, Prod.mk.injEq] at h
          obtain ⟨h1, h2⟩ := h
          subst h2
          have hsE : s ∈ O.erase w.kod :=
            (stocksLoop_sublist ws (O.erase w.kod) recs0 rem0 hrec).subset hs
          rcases List.mem_cons.mp hw0 with hw | hw
          · subst hw
            have := (List.Nodup.mem_erase_iff hnd).mp hsE
            exact fun hk => this.1 hk.symm
          · exact ih (O.erase w.kod) recs0 rem0 hrec (List.Nodup.erase w.kod hnd)
              s hs w0 hw
    · rw [stocksLoop, if_neg hmem] at h
      rcases List.mem_cons.mp hw0 with hw | hw
      · subst hw
        intro hk
        have hsO : s ∈ O := (stocksLoop_sublist ws O recs rem h).subset hs
        exact hmem (hk ▸ hsO)
      · exact ih O recs rem h hnd s hs w0 hw

/-- Every record emitted by the matching loop stems from a vendor record with
the same code and the normalised quantity. -/
theorem stocksLoop_provenance (V : List WatchRecord) :
    ∀ (O : List String) (recs : List StockRecord) (rem : List String),
      stocksLoop V O = some (recs, rem) →
      ∀ r ∈ recs, ∃ w ∈ V, w.kod = r.offer_id ∧
        normalizeQuantity w.kolichestvo = some r.stock := by
  induction V with
  | nil =>
    intro O recs rem h r hr
    simp only [stocksLoop, Option.some.injEq, Prod.mk.injEq] at h
    obtain ⟨h1, h2⟩ := h
    subst h1
    cases hr
  | cons w ws ih =>
    intro O recs rem h r hr
    by_cases hmem : w.kod ∈ O
    · rw [stocksLoop, if_pos hmem] at h
      cases hq : normalizeQuantity w.kolichestvo with
      | none => rw [hq] at h; cases h
      | some stock =>
        rw [hq] at h
        cases hrec : stocksLoop ws (O.erase w.kod) with
        | none => rw [hrec] at h; cases h
        | some pr =>
          obtain ⟨recs0, rem0⟩ := pr
          rw [hrec] at h
          simp only [Option.some.injEq, Prod.mk.injEq] at h
          obtain ⟨h1, h2⟩ := h
          subst h1
          rcases List.mem_cons.mp hr with hr0 | hr0
          · subst hr0
            exact ⟨w, List.mem_cons_self w ws, rfl, hq⟩
          · obtain ⟨w0, hw0, hk, hn⟩ := ih (O.erase w.kod) recs0 rem0 hrec r hr0
            exact ⟨w0, List.mem_cons_of_mem w hw0, hk, hn⟩
    · rw [stocksLoop, if_neg hmem] at h
      obtain ⟨w0, hw0, hk, hn⟩ := ih O recs rem h r hr
      exact ⟨w0, List.mem_cons_of_mem w hw0, hk, hn⟩

/-- On a duplicate-free input list in which every identifier has a matching
vendor record, the matching loop leaves nothing behind. -/
theorem stocksLoop_rem_nil (V : List WatchRecord) (O : List String)
    (recs : List StockRecord) (rem : List String)
    (h : stocksLoop V O = some (recs, rem)) (hnd : O.Nodup)
    (hcov : ∀ oid ∈ O, ∃ w ∈ V, w.kod = oid) : rem = [] := by
  by_contra hne
  obtain ⟨s, hs⟩ := List.exists_mem_of_ne_nil rem hne
  have hsO : s ∈ O := (stocksLoop_sublist V O recs rem h).subset hs
  obtain ⟨w, hw, hwk⟩ := hcov s hsO
  exact stocksLoop_rem_no_vendor V O recs rem h hnd s hs w hw hwk

/-- Decomposition of `create_stocks` into the matching loop's output and the
zero-stock fallback records. -/
theorem create_stocks_eq_some (V : List WatchRecord) (O : List String)
    (out : List StockRecord) (rem : List String)
    (h : create_stocks V O = some (out, rem)) :
    ∃ recs, stocksLoop V O = some (recs, rem) ∧
      out = recs ++ rem.map (fun oid => ⟨oid, 0⟩) := by
  unfold create_stocks at h
  cases hl : stocksLoop V O with
  | none => rw [hl] at h; cases h
  | some pr =>
    obtain ⟨recs, rem0⟩ := pr
    rw [hl] at h
    simp only [Option.some.injEq, Prod.mk.injEq] at h
    obtain ⟨h1, h2⟩ := h
    subst h2
    exact ⟨recs, rfl, h1.symm⟩

/-- One item of a Yandex Market stock-update record (market.py lines
195-201): the normalised count, the fixed type "FIT" and the timestamp. -/
structure MarketStockItem where
  count : Int
  type : String
  updatedAt : String
deriving DecidableEq, Repr

/-- One Yandex Market stock-update record (market.py lines 191-203): the
sku, the warehouse identifier and a single-element items list. -/
structure MarketStockRecord where
  sku : String
  warehouseId : String
  items : List MarketStockItem
deriving DecidableEq, Repr

/-- The Yandex Market record carrying the same code and normalised count as
an Ozon record, for a fixed warehouse and timestamp. -/
def toMarketStock (warehouse_id date : String) (r : StockRecord) : MarketStockRecord :=
  ⟨r.offer_id, warehouse_id, [⟨r.stock, "FIT", date⟩]⟩

/-- The first loop of `market.create_stocks` (market.py lines 182-204): the
same match-normalise-erase loop as in `seller.create_stocks`, emitting the
Yandex Market record shape.  `date` models the `datetime.utcnow()` timestamp
computed once before the loop. -/
def market_stocksLoop (warehouse_id date : String) :
    List WatchRecord → List String → Option (List MarketStockRecord × List String)
  | [], offer_ids => some ([], offer_ids)
  | w :: ws, offer_ids =>
    if w.kod ∈ offer_ids then
      match normalizeQuantity w.kolichestvo with
      | none => none
      | some stock =>
        match market_stocksLoop warehouse_id date ws (offer_ids.erase w.kod) with
        | none => none
        | some (recs, rem) =>
          some (⟨w.kod, warehouse_id, [⟨stock, "FIT", date⟩]⟩ :: recs, rem)
    else market_stocksLoop warehouse_id date ws offer_ids

/-- `market.create_stocks` (market.py lines 153-220): matching loop plus the
zero-count fallback loop over the identifiers left in `offer_ids`. -/
def market_create_stocks (watch_remnants : List WatchRecord) (offer_ids : List String)
    (warehouse_id date : String) : Option (List MarketStockRecord × List String) :=
  match market_stocksLoop warehouse_id date watch_remnants offer_ids with
  | none => none
  | some (recs, rem) =>
    some (recs ++ rem.map (fun oid => ⟨oid, warehouse_id, [⟨0, "FIT", date⟩]⟩), rem)

/-- The Yandex Market matching loop is the Ozon matching loop with each
record translated to the Market shape. -/
theorem market_stocksLoop_eq (warehouse_id date : String) (V : List WatchRecord) :
    ∀ O : List String,
      market_stocksLoop warehouse_id date V O =
        (stocksLoop V O).map
          (fun pr => (pr.1.map (toMarketStock warehouse_id date), pr.2)) := by
  induction V with
  | nil => intro O; rfl
  | cons w ws ih =>
    intro O
    rw [market_stocksLoop, stocksLoop]
    by_cases hmem : w.kod ∈ O
    · rw [if_pos hmem, if_pos hmem]
      cases hq : normalizeQuantity w.kolichestvo with
      | none => rfl
      | some stock =>
        rw [ih (O.erase w.kod)]
        cases hrec : stocksLoop ws (O.erase w.kod) with
        | none => rfl
        | some pr =>
          obtain ⟨recs0, rem0⟩ := pr
          rfl
    · rw [if_neg hmem, if_neg hmem, ih O]

/-- `market.create_stocks` is `seller.create_stocks` with each output record
translated to the Market shape; the leftover identifiers agree. -/
theorem market_create_stocks_eq (V : List WatchRecord) (O : List String)
    (warehouse_id date : String) :
    market_create_stocks V O warehouse_id date =
      (create_stocks V O).map
        (fun pr => (pr.1.map (toMarketStock warehouse_id date), pr.2)) := by
  unfold market_create_stocks create_stocks
  rw [market_stocksLoop_eq]
  cases stocksLoop V O with
  | none => rfl
  | some pr =>
    obtain ⟨recs, rem⟩ := pr
    simp only [Option.map_some', List.map_append, List.map_map]
    rfl

/-- C1: whenever `create_stocks` returns on vendor records V and offer
identifiers O, it returns exactly `O.length` stock records; each identifier
occurs as `offer_id` with the same multiplicity as in O (hence exactly once
when O is duplicate-free); every record is either matched to a vendor record
with the same code or is a zero-stock fallback; an empty V yields only
zero-stock fallbacks; a duplicate-free O fully covered by vendor codes
leaves no identifier for the fallback loop; and the Yandex Market variant
has the same length and multiplicity properties on its `sku` field. -/
theorem create_stocks_partition_preserving
    (V : List WatchRecord) (O : List String) (out : List StockRecord)
    (rem : List String) (h : create_stocks V O = some (out, rem)) :
    out.length = O.length ∧
    (∀ s : String, out.countP (fun r => r.offer_id == s) = O.count s) ∧
    (O.Nodup → ∀ s ∈ O, out.countP (fun r => r.offer_id == s) = 1) ∧
    (∀ r ∈ out,
      (∃ w ∈ V, w.kod = r.offer_id ∧
        normalizeQuantity w.kolichestvo = some r.stock) ∨
      r.stock = 0) ∧
    (V = [] → out = O.map (fun oid => ⟨oid, 0⟩)) ∧
    (O.Nodup → (∀ oid ∈ O, ∃ w ∈ V, w.kod = oid) → rem = []) ∧
    (∀ (warehouse_id date : String) (mout : List MarketStockRecord)
        (mrem : List String),
      market_create_stocks V O warehouse_id date = some (mout, mrem) →
      mout.length = O.length ∧
      ∀ s : String, mout.countP (fun r => r.sku == s) = O.count s) := by
  obtain ⟨recs, hl, hout⟩ := create_stocks_eq_some V O out rem h
  have hlen : out.length = O.length := by
    rw [hout, List.length_append, List.length_map]
    exact stocksLoop_length V O recs rem hl
  have hcount : ∀ s : String, out.countP (fun r => r.offer_id == s) = O.count s := by
    intro s
    rw [hout, List.countP_append, List.countP_map]
    exact stocksLoop_count V O recs rem hl s
  refine ⟨hlen, hcount, ?_, ?_, ?_, ?_, ?_⟩
  · intro hnd s hs
    rw [hcount s]
    exact List.count_eq_one_of_mem hnd hs
  · intro r hr
    rw [hout] at hr
    rcases List.mem_append.mp hr with hr0 | hr0
    · exact Or.inl (stocksLoop_provenance V O recs rem hl r hr0)
    · right
      obtain ⟨oid, _, hoid⟩ := List.mem_map.mp hr0
      rw [← hoid]
  · intro hV
    subst hV
    rw [stocksLoop] at hl
    simp only [Option.some.injEq, Prod.mk.injEq] at hl
    obtain ⟨h1, h2⟩ := hl
    subst h1
    subst h2
    simpa using hout
  · intro hnd hcov
    exact stocksLoop_rem_nil V O recs rem hl hnd hcov
  · intro warehouse_id date mout mrem hm
    rw [market_create_stocks_eq, h, Option.map_some'] at hm
    simp only [Option.some.injEq, Prod.mk.injEq] at hm
    obtain ⟨hm1, hm2⟩ := hm
    constructor
    · rw [← hm1, List.length_map]
      exact hlen
    · intro s
      rw [← hm1, List.countP_map]
      exact hcount s

/-- Witness for C1: one vendor row A1 against the identifiers ["A1","A2"]
yields the matched record for A1 plus the zero-stock fallback for A2. -/
theorem create_stocks_partition_preserving_witness :
    ([⟨"A1", 100⟩, ⟨"A2", 0⟩] : List StockRecord).length
      = (["A1", "A2"] : List String).length :=
  (create_stocks_partition_preserving [⟨"A1", ">10", "100.00 x"⟩] ["A1", "A2"]
    [⟨"A1", 100⟩, ⟨"A2", 0⟩] ["A2"] (by decide)).1

/-- When no vendor code is present in the identifier list, `create_prices`
emits nothing. -/
theorem create_prices_eq_nil (V : List WatchRecord) (O : List String)
    (hno : ∀ w ∈ V, w.kod ∉ O) : create_prices V O = [] := by
  induction V with
  | nil => rfl
  | cons w ws ih =>
    have hw : w.kod ∉ O := hno w (List.mem_cons_self w ws)
    unfold create_prices at ih ⊢
    rw [create_prices_st, if_neg hw]
    exact ih (fun w0 hw0 => hno w0 (List.mem_cons_of_mem w hw0))

/-- C9: after `create_stocks V O` has drained the duplicate-free identifier
list O down to `rem` (the in-place mutation performed inside seller.py's
`main`), `create_prices V rem` — the very next call in `main`, which reuses
the same mutated list — returns the empty price list: every identifier left
in `rem` has no matching vendor record. -/
theorem create_prices_after_create_stocks_empty
    (V : List WatchRecord) (O : List String) (out : List StockRecord)
    (rem : List String) (hnd : O.Nodup)
    (h : create_stocks V O = some (out, rem)) :
    create_prices V rem = [] := by
  obtain ⟨recs, hl, hout⟩ := create_stocks_eq_some V O out rem h
  have hno := stocksLoop_rem_no_vendor V O recs rem hl hnd
  exact create_prices_eq_nil V rem
    (fun w hw hmem => hno w.kod hmem w hw rfl)

/-- Witness for C9: vendor row A with offer identifiers ["A","B"]; after
`create_stocks` the list is ["B"], and `create_prices` on it is empty. -/
theorem create_prices_after_create_stocks_empty_witness :
    create_prices [⟨"A", ">10", "1.0 x"⟩] ["B"] = [] :=
  create_prices_after_create_stocks_empty [⟨"A", ">10", "1.0 x"⟩] ["A", "B"]
    [⟨"A", 100⟩, ⟨"B", 0⟩] ["B"] (by decide) (by decide)

/-- Price component of a Yandex Market price-update record (market.py lines
248-253). -/
structure MarketPrice where
  value : Int
  currencyId : String
deriving DecidableEq, Repr

/-- One Yandex Market price-update record (market.py lines 245-256). -/
structure MarketPriceRecord where
  id : String
  price : MarketPrice
deriving DecidableEq, Repr

/-- `market.create_prices` (market.py lines 223-258) in state-passing form:
like the Ozon variant it only tests membership in `offer_ids`, never
mutating it; the price goes through `int(price_conversion(...))`, which can
raise (`none`). -/
def market_create_prices_st :
    List WatchRecord → List String → Option (List MarketPriceRecord × List String)
  | [], offer_ids => some ([], offer_ids)
  | w :: ws, offer_ids =>
    if w.kod ∈ offer_ids then
      match pyStrToInt (price_conversion w.tsena) with
      | none => none
      | some v =>
        match market_create_prices_st ws offer_ids with
        | none => none
        | some (recs, rem) => some (⟨w.kod, ⟨v, "RUR"⟩⟩ :: recs, rem)
    else market_create_prices_st ws offer_ids

/-- C10: neither `create_prices` variant mutates its `offer_ids` argument —
the final state of the list equals the input for all vendor records and
identifier lists (only `create_stocks` removes identifiers). -/
theorem create_prices_preserves_offer_ids :
    (∀ (V : List WatchRecord) (O : List String), (create_prices_st V O).2 = O) ∧
    (∀ (V : List WatchRecord) (O : List String)
        (res : List MarketPriceRecord × List String),
      market_create_prices_st V O = some res → res.2 = O) := by
  constructor
  · intro V O
    induction V with
    | nil => rfl
    | cons w ws ih =>
      rw [create_prices_st]
      by_cases hmem : w.kod ∈ O
      · rw [if_pos hmem]
        exact ih
      · rw [if_neg hmem]
        exact ih
  · intro V O
    induction V with
    | nil =>
      intro res h
      rw [market_create_prices_st] at h
      simp only [Option.some.injEq] at h
      rw [← h]
    | cons w ws ih =>
      intro res h
      rw [market_create_prices_st] at h
      by_cases hmem : w.kod ∈ O
      · rw [if_pos hmem] at h
        cases hv : pyStrToInt (price_conversion w.tsena) with
        | none => rw [hv] at h; cases h
        | some v =>
          rw [hv] at h
          cases hrec : market_create_prices_st ws O with
          | none => rw [hrec] at h; cases h
          | some pr =>
            obtain ⟨recs, rem⟩ := pr
            rw [hrec] at h
            simp only [Option.some.injEq] at h
            have hr := ih (recs, rem) hrec
            rw [← h]
            exact hr
      · rw [if_neg hmem] at h
        exact ih res h

/-- Witness for C10 on the Market variant at a concrete vendor row. -/
theorem create_prices_preserves_offer_ids_witness :
    (([⟨"A", ⟨100, "RUR"⟩⟩], ["A"]) : List MarketPriceRecord × List String).2
      = ["A"] :=
  create_prices_preserves_offer_ids.2 [⟨"A", ">10", "100.00 x"⟩] ["A"]
    ([⟨"A", ⟨100, "RUR"⟩⟩], ["A"]) (by decide)

/-- One product entry of an Ozon catalog page, as read by
`seller.get_offer_ids` (seller.py line 81). -/
structure OzonProduct where
  offer_id : String
deriving DecidableEq, Repr

/-- One Ozon catalog page response (seller.py lines 73-76): its items, the
reported catalog total and the cursor for the next request. -/
structure OzonPage where
  items : List OzonProduct
  total : Nat
  last_id : String
deriving DecidableEq, Repr

/-- The pagination loop of `seller.get_offer_ids` (seller.py lines 70-78)
over the stream of page responses the server would return in order: extend
the accumulated product list with the page's items and stop as soon as the
page's reported total equals the accumulated length.  `none` models a loop
that exhausts the stream without the totals ever matching. -/
def ozonCollect : List OzonPage → List OzonProduct → Option (List OzonProduct)
  | [], _ => none
  | p :: ps, acc =>
    if p.total = (acc ++ p.items).length then some (acc ++ p.items)
    else ozonCollect ps (acc ++ p.items)

/-- `seller.get_offer_ids` (seller.py lines 53-82): collect the products of
the fetched pages, then extract each product's offer identifier. -/
def get_offer_ids (pages : List OzonPage) : Option (List String) :=
  (ozonCollect pages []).map (fun products => products.map OzonProduct.offer_id)

/-- One offer-mapping entry of a Yandex Market catalog page, as read by
`market.get_offer_ids` (market.py line 149). -/
structure MarketEntry where
  shopSku : String
deriving DecidableEq, Repr

/-- One Yandex Market catalog page response (market.py lines 143-144): its
entries and the next-page token (the absent token of the last page is
modelled as the empty string, both being falsy in `if not page`). -/
structure MarketPage where
  offerMappingEntries : List MarketEntry
  nextPageToken : String
deriving DecidableEq, Repr

/-- The pagination loop of `market.get_offer_ids` (market.py lines 139-146):
extend the accumulated entry list and stop as soon as the page's next-page
token is empty.  `none` models a loop that exhausts the stream without ever
seeing an empty token. -/
def marketCollect : List MarketPage → List MarketEntry → Option (List MarketEntry)
  | [], _ => none
  | p :: ps, acc =>
    if p.nextPageToken = "" then some (acc ++ p.offerMappingEntries)
    else marketCollect ps (acc ++ p.offerMappingEntries)

/-- `market.get_offer_ids` (market.py lines 122-150): collect the entries of
the fetched pages, then extract each entry's shop sku. -/
def market_get_offer_ids (pages : List MarketPage) : Option (List String) :=
  (marketCollect pages []).map (fun entries => entries.map MarketEntry.shopSku)

/-- The Ozon termination signal: some page's reported total equals the item
count accumulated through that page (`acc` counts the items fetched so
far). -/
def ozonHasStop : List OzonPage → Nat → Bool
  | [], _ => false
  | p :: ps, acc =>
    (p.total == acc + p.items.length) || ozonHasStop ps (acc + p.items.length)

/-- The Market pagination loop returns a value exactly when some page of the
stream carries an empty next-page token. -/
theorem marketCollect_isSome (pages : List MarketPage) :
    ∀ acc : List MarketEntry,
      (marketCollect pages acc).isSome
        = pages.any (fun p => p.nextPageToken == "") := by
  induction pages with
  | nil => intro acc; rfl
  | cons p ps ih =>
    intro acc
    rw [marketCollect, List.any_cons]
    by_cases hp : p.nextPageToken = ""
    · rw [if_pos hp]
      simp [hp]
    · rw [if_neg hp, ih]
      simp [hp]

/-- Characterisation of a successful Market pagination run: the stream
splits at the first empty-token page, and the result is the accumulator
followed by the entries of the consumed pages. -/
theorem marketCollect_eq_some (pages : List MarketPage) :
    ∀ (acc res : List MarketEntry),
      marketCollect pages acc = some res →
      ∃ pre p post, pages = pre ++ p :: post ∧ p.nextPageToken = "" ∧
        (∀ q ∈ pre, q.nextPageToken ≠ "") ∧
        res = acc ++ ((pre ++ [p]).map MarketPage.offerMappingEntries).flatten := by
  induction pages with
  | nil => intro acc res h; cases h
  | cons p ps ih =>
    intro acc res h
    rw [marketCollect] at h
    by_cases hp : p.nextPageToken = ""
    · rw [if_pos hp] at h
      simp only [Option.some.injEq] at h
      refine ⟨[], p, ps, rfl, hp, ?_, ?_⟩
      · intro q hq
        cases hq
      · simp [← h]
    · rw [if_neg hp] at h
      obtain ⟨pre, p0, post, hpages, hstop, hpre, hres⟩ :=
        ih (acc ++ p.offerMappingEntries) res h
      refine ⟨p :: pre, p0, post, by rw [hpages]; rfl, hstop, ?_, ?_⟩
      · intro q hq
        rcases List.mem_cons.mp hq with hq0 | hq0
        · subst hq0; exact hp
        · exact hpre q hq0
      · rw [hres]
        simp [List.append_assoc]

/-- The Ozon pagination loop returns a value exactly when the accumulated
item count hits some page's reported total. -/
theorem ozonCollect_isSome (pages : List OzonPage) :
    ∀ acc : List OzonProduct,
      (ozonCollect pages acc).isSome = ozonHasStop pages acc.length := by
  induction pages with
  | nil => intro acc; rfl
  | cons p ps ih =>
    intro acc
    rw [ozonCollect, ozonHasStop]
    by_cases hp : p.total = (acc ++ p.items).length
    · rw [if_pos hp]
      rw [List.length_append] at hp
      have hb : (p.total == acc.length + p.items.length) = true := beq_iff_eq.mpr hp
      simp [hb]
    · rw [if_neg hp, ih]
      rw [List.length_append] at hp
      have hb : (p.total == acc.length + p.items.length) = false :=
        beq_eq_false_iff_ne.mpr hp
      simp [hb, List.length_append]

/-- Characterisation of a successful Ozon pagination run: the stream splits
at a page whose total matches, and the result is the accumulator followed by
the items of the consumed pages. -/
theorem ozonCollect_eq_some (pages : List OzonPage) :
    ∀ (acc res : List OzonProduct),
      ozonCollect pages acc = some res →
      ∃ pre p post, pages = pre ++ p :: post ∧
        res = acc ++ ((pre ++ [p]).map OzonPage.items).flatten ∧
        p.total = res.length := by
  induction pages with
  | nil => intro acc res h; cases h
  | cons p ps ih =>
    intro acc res h
    rw [ozonCollect] at h
    by_cases hp : p.total = (acc ++ p.items).length
    · rw [if_pos hp] at h
      simp only [Option.some.injEq] at h
      refine ⟨[], p, ps, rfl, by simp [← h], ?_⟩
      rw [← h]
      exact hp
    · rw [if_neg hp] at h
      obtain ⟨pre, p0, post, hpages, hres, htot⟩ := ih (acc ++ p.items) res h
      refine ⟨p :: pre, p0, post, by rw [hpages]; rfl, ?_, htot⟩
      rw [hres]
      simp [List.append_assoc]

/-- C6 counterexample: a single catalog page listing the identifier "A"
twice makes the Ozon `get_offer_ids` return ["A", "A"], a list with a
duplicate — the function performs no deduplication. -/
theorem get_offer_ids_duplicates_counterexample :
    get_offer_ids [⟨[⟨"A"⟩, ⟨"A"⟩], 2, ""⟩] = some ["A", "A"] ∧
    ¬ (["A", "A"] : List String).Nodup := by
  exact ⟨rfl, by decide⟩

/-- C6 amended: both `get_offer_ids` variants return the complete list of
offer identifiers of the fetched pages, concatenated in page order WITHOUT
deduplication — an identifier occurring twice on one page or on two pages
appears twice in the result. -/
theorem get_offer_ids_concat :
    (∀ (pages : List OzonPage) (ids : List String),
      get_offer_ids pages = some ids →
      ∃ consumed rest, pages = consumed ++ rest ∧
        ids = ((consumed.map OzonPage.items).flatten).map OzonProduct.offer_id) ∧
    (∀ (pages : List MarketPage) (ids : List String),
      market_get_offer_ids pages = some ids →
      ∃ consumed rest, pages = consumed ++ rest ∧
        ids = ((consumed.map MarketPage.offerMappingEntries).flatten).map
          MarketEntry.shopSku) ∧
    get_offer_ids [⟨[⟨"A"⟩, ⟨"A"⟩], 2, ""⟩] = some ["A", "A"] ∧
    market_get_offer_ids [⟨[⟨"B"⟩], "t"⟩, ⟨[⟨"B"⟩], ""⟩] = some ["B", "B"] := by
  refine ⟨?_, ?_, rfl, rfl⟩
  · intro pages ids h
    unfold get_offer_ids at h
    cases hc : ozonCollect pages [] with
    | none => rw [hc] at h; cases h
    | some res =>
      rw [hc, Option.map_some'] at h
      simp only [Option.some.injEq] at h
      obtain ⟨pre, p, post, hpages, hres, _⟩ := ozonCollect_eq_some pages [] res hc
      refine ⟨pre ++ [p], post, by rw [hpages]; simp, ?_⟩
      rw [← h, hres]
      simp
  · intro pages ids h
    unfold market_get_offer_ids at h
    cases hc : marketCollect pages [] with
    | none => rw [hc] at h; cases h
    | some res =>
      rw [hc, Option.map_some'] at h
      simp only [Option.some.injEq] at h
      obtain ⟨pre, p, post, hpages, _, _, hres⟩ := marketCollect_eq_some pages [] res hc
      refine ⟨pre ++ [p], post, by rw [hpages]; simp, ?_⟩
      rw [← h, hres]
      simp

/-- Witness for C6 (amended) at the duplicate one-page Ozon stream. -/
theorem get_offer_ids_concat_witness :
    ∃ consumed rest,
      ([⟨[⟨"A"⟩, ⟨"A"⟩], 2, ""⟩] : List OzonPage) = consumed ++ rest ∧
      (["A", "A"] : List String)
        = ((consumed.map OzonPage.items).flatten).map OzonProduct.offer_id :=
  get_offer_ids_concat.1 [⟨[⟨"A"⟩, ⟨"A"⟩], 2, ""⟩] ["A", "A"] (by decide)

/-- C7: the pagination loops terminate exactly on the marketplace stop
signal — the Market variant returns a value iff some page of the stream
carries an empty next-page token, the Ozon variant iff the accumulated item
count reaches some page's reported total — and on termination each returns
the concatenated identifiers of exactly the pages fetched up to the stop
signal (the first empty-token page for Market; a page where the total
matches the accumulated count, which then equals the result length, for
Ozon). -/
theorem get_offer_ids_pagination_terminates :
    (∀ pages : List MarketPage,
      (market_get_offer_ids pages).isSome
        = pages.any (fun p => p.nextPageToken == "")) ∧
    (∀ pages : List OzonPage,
      (get_offer_ids pages).isSome = ozonHasStop pages 0) ∧
    (∀ (pages : List MarketPage) (ids : List String),
      market_get_offer_ids pages = some ids →
      ∃ pre p post, pages = pre ++ p :: post ∧ p.nextPageToken = "" ∧
        (∀ q ∈ pre, q.nextPageToken ≠ "") ∧
        ids = (((pre ++ [p]).map MarketPage.offerMappingEntries).flatten).map
          MarketEntry.shopSku) ∧
    (∀ (pages : List OzonPage) (ids : List String),
      get_offer_ids pages = some ids →
      ∃ pre p post, pages = pre ++ p :: post ∧
        ids = (((pre ++ [p]).map OzonPage.items).flatten).map
          OzonProduct.offer_id ∧
        p.total = ids.length) := by
  refine ⟨?_, ?_, ?_, ?_⟩
  · intro pages
    unfold market_get_offer_ids
    rw [Option.isSome_map']
    exact marketCollect_isSome pages []
  · intro pages
    unfold get_offer_ids
    rw [Option.isSome_map']
    exact ozonCollect_isSome pages []
  · intro pages ids h
    unfold market_get_offer_ids at h
    cases hc : marketCollect pages [] with
    | none => rw [hc] at h; cases h
    | some res =>
      rw [hc, Option.map_some'] at h
      simp only [Option.some.injEq] at h
      obtain ⟨pre, p, post, hpages, hstop, hpre, hres⟩ :=
        marketCollect_eq_some pages [] res hc
      refine ⟨pre, p, post, hpages, hstop, hpre, ?_⟩
      rw [← h, hres]
      simp
  · intro pages ids h
    unfold get_offer_ids at h
    cases hc : ozonCollect pages [] with
    | none => rw [hc] at h; cases h
    | some res =>
      rw [hc, Option.map_some'] at h
      simp only [Option.some.injEq] at h
      obtain ⟨pre, p, post, hpages, hres, htot⟩ := ozonCollect_eq_some pages [] res hc
      refine ⟨pre, p, post, hpages, ?_, ?_⟩
      · rw [← h, hres]
        simp
      · rw [← h, List.length_map]
        exact htot

/-- Witness for C7 at a concrete one-page Market stream whose single page
carries the empty next-page token. -/
theorem get_offer_ids_pagination_terminates_witness :
    ∃ pre p post,
      ([⟨[⟨"A"⟩], ""⟩] : List MarketPage) = pre ++ p :: post ∧
      p.nextPageToken = "" ∧ (∀ q ∈ pre, q.nextPageToken ≠ "") ∧
      (["A"] : List String)
        = (((pre ++ [p]).map MarketPage.offerMappingEntries).flatten).map
          MarketEntry.shopSku :=
  get_offer_ids_pagination_terminates.2.2.1 [⟨[⟨"A"⟩], ""⟩] ["A"] (by decide)
